import Mathlib

set_option maxRecDepth 40000

/-!
Shallow embedding of `task_cli.py`, a single-file command-line task tracker.

The program stores an ordered collection of task records in a JSON file.
Each command loads the collection, mutates it in memory, and (when a
mutation happened) writes the whole collection back.  This file translates
the data model, the validation logic, the persistence layer (modelling the
`json.dump` / `json.load` calls on the store's canonical shape) and each
command into executable Lean definitions, and proves the specification
claims about them.

Modelling conventions:
* A Python string is modelled as a Lean `String` (a list of Unicode scalar
  values); file contents are modelled as `List Char`.
* `datetime.now().isoformat()` is modelled by a timestamp parameter `now`
  passed to each operation: all clock reads within one command invocation
  are identified with that single value.
* A missing store file is `none`; an existing file with content `c` is
  `some c`.
* `click` behaviour is modelled by the `Outcome` record: a normal return
  is exit code 0, a `ClickException` exit code 1, a `BadParameter` exit
  code 2; `click.echo` appends to `out`, `click.echo(err=True)` and
  exception rendering append to `err`.
-/

namespace TaskCli

/-- The whitespace test used by Python's `str.split()`: the set of Unicode
code points Python treats as whitespace (`str.isspace`). -/
def pyWs (c : Char) : Bool :=
  let n := c.toNat
  (9 ≤ n && n ≤ 13) || (28 ≤ n && n ≤ 31) || n == 32 || n == 133 || n == 160 ||
  n == 5760 || (8192 ≤ n && n ≤ 8202) || n == 8232 || n == 8233 || n == 8239 ||
  n == 8287 || n == 12288

/-- `description.split()` from `validate_description` (line 130): split on
runs of whitespace, dropping leading/trailing whitespace.  `acc` holds the
reversed characters of the word currently being scanned. -/
def pyWordsAux : List Char → List Char → List (List Char)
  | [], acc => if acc.isEmpty then [] else [acc.reverse]
  | c :: cs, acc =>
    if pyWs c then
      if acc.isEmpty then pyWordsAux cs [] else acc.reverse :: pyWordsAux cs []
    else pyWordsAux cs (c :: acc)

/-- Python `str.split()` on the character list of a string. -/
def pyWords (l : List Char) : List (List Char) := pyWordsAux l []

/-- Python `' '.join(words)`. -/
def joinWords : List (List Char) → List Char
  | [] => []
  | [w] => w
  | w :: w2 :: rest => w ++ (' ' :: joinWords (w2 :: rest))

/-- `' '.join(description.split())` — the normalization performed by
`validate_description` (line 130). -/
def normalizeDesc (s : String) : String := ⟨joinWords (pyWords s.data)⟩

/-- Spec-side description of the normalization, following the spec's words:
"collapses every run of whitespace to a single space".  `lastWs` records
whether the previously scanned character was whitespace. -/
def collapseAux : List Char → Bool → List Char
  | [], _ => []
  | c :: cs, lastWs =>
    if pyWs c then
      if lastWs then collapseAux cs true else ' ' :: collapseAux cs true
    else c :: collapseAux cs false

/-- Spec-side: collapse every whitespace run to a single space. -/
def collapseRuns (l : List Char) : List Char := collapseAux l false

/-- Spec-side: trim leading spaces. -/
def ltrimSp (l : List Char) : List Char := l.dropWhile (fun c => c == ' ')

/-- Spec-side: trim trailing spaces. -/
def rtrimSp (l : List Char) : List Char :=
  (l.reverse.dropWhile (fun c => c == ' ')).reverse

/-- Spec-side: trim the ends. -/
def trimEnds (l : List Char) : List Char := rtrimSp (ltrimSp l)

/-- Spec-side normalization, from the spec's words: collapse every
whitespace run to a single space, then trim the ends. -/
def specNormalize (l : List Char) : List Char := trimEnds (collapseRuns l)

/-- The two validation failures of `validate_description` (lines 131-134):
`empty` carries the message "Task description cannot be empty", `tooLong`
the message "Task description is too long". -/
inductive ValErr where
  | empty
  | tooLong
deriving DecidableEq, Repr

/-- The rendered `click.BadParameter` message of each validation failure. -/
def valErrMsg : ValErr → String
  | .empty => "Task description cannot be empty"
  | .tooLong => "Task description is too long"

/-- `validate_description` (lines 128-135): normalize, reject an empty
normalized result, reject a normalized result longer than 500 characters,
otherwise return the normalized string. -/
def validate_description (s : String) : Except ValErr String :=
  let n := normalizeDesc s
  if n.data.isEmpty then .error .empty
  else if n.data.length > 500 then .error .tooLong
  else .ok n

/-- A task record, the shape built by `add_task` (lines 117-123) and stored
in the JSON file.  `id` is a Python `int`, the other fields are strings. -/
structure Task where
  id : Int
  description : String
  status : String
  createdAt : String
  updatedAt : String
deriving DecidableEq, Repr

/-- Equality on `Except` results is decidable when it is on both sides. -/
instance {α β : Type} [DecidableEq α] [DecidableEq β] : DecidableEq (Except α β) :=
  fun a b =>
    match a, b with
    | .ok x, .ok y =>
      if h : x = y then .isTrue (by rw [h]) else .isFalse (by intro hh; cases hh; exact h rfl)
    | .error x, .error y =>
      if h : x = y then .isTrue (by rw [h]) else .isFalse (by intro hh; cases hh; exact h rfl)
    | .ok _, .error _ => .isFalse (by intro hh; cases hh)
    | .error _, .ok _ => .isFalse (by intro hh; cases hh)

/-- Python `max(xs, default=0)` on a list of integers. -/
def pyMaxDefault0 : List Int → Int
  | [] => 0
  | x :: xs => xs.foldl max x

/-- `max([task['id'] for task in tasks], default=0) + 1` (line 115). -/
def nextId (tasks : List Task) : Int :=
  pyMaxDefault0 (tasks.map (fun t => t.id)) + 1

/-- The in-memory part of `add_task` (lines 112-126): build the new task
from the already-validated description and append it.  Returns the new
collection and the created task.  The two `datetime.now()` calls of one
invocation are modelled by the single parameter `now`. -/
def add_task (tasks : List Task) (description now : String) : List Task × Task :=
  let t : Task := ⟨nextId tasks, description, "todo", now, now⟩
  (tasks ++ [t], t)

/-- The `for` loop of `update` (lines 52-58): mutate the first task whose
id matches, leaving everything else untouched; `none` when no task
matches. -/
def updateFirst : List Task → Int → String → String → Option (List Task)
  | [], _, _, _ => none
  | t :: ts, i, d, now =>
    if t.id == i then some ({ t with description := d, updatedAt := now } :: ts)
    else (updateFirst ts i d now).map (fun ts2 => t :: ts2)

/-- The `for` loop of `_update_task_status` (lines 102-108): set the status
of the first task whose id matches; `none` when no task matches. -/
def setStatusFirst : List Task → Int → String → String → Option (List Task)
  | [], _, _, _ => none
  | t :: ts, i, st, now =>
    if t.id == i then some ({ t with status := st, updatedAt := now } :: ts)
    else (setStatusFirst ts i st now).map (fun ts2 => t :: ts2)

/-- The list comprehension of `delete` (line 67): keep the tasks whose id
differs. -/
def deleteAll (tasks : List Task) (i : Int) : List Task :=
  tasks.filter (fun t => t.id != i)

/-- One output line of `list` (line 85): `[<id>] <description> (<status>)`. -/
def fmtTask (t : Task) : String :=
  "[" ++ toString t.id ++ "] " ++ t.description ++ " (" ++ t.status ++ ")"

/-- The body of `list` (lines 77-85) after loading: filter by status unless
`all`, print "No tasks found" on an empty result, otherwise one formatted
line per task in collection order. -/
def listLines (tasks : List Task) (status : String) : List String :=
  let sel := if status != "all" then tasks.filter (fun t => t.status == status) else tasks
  if sel.isEmpty then ["No tasks found"] else sel.map fmtTask

/-! ### Persistence: the serialized form written by `json.dump(tasks, f, indent=2)`
(line 30) and a parsing model of `json.load` (line 18) on the store's
array-of-task-records shape. -/

/-- Lowercase hexadecimal digit, as emitted by Python's JSON encoder. -/
def hexDigit (n : Nat) : Char :=
  if n < 10 then Char.ofNat (48 + n) else Char.ofNat (87 + n)

/-- Four lowercase hex digits of `n < 65536`. -/
def toHex4 (n : Nat) : List Char :=
  [hexDigit (n / 4096 % 16), hexDigit (n / 256 % 16), hexDigit (n / 16 % 16),
   hexDigit (n % 16)]

/-- The escape of one character in a JSON string, per Python `json.dumps`
with the default `ensure_ascii=True`: `"` and `\` and the five short
control escapes use two-character escapes, other characters outside
U+0020..U+007E become `\uXXXX` (a surrogate pair beyond U+FFFF), printable
ASCII is emitted as itself. -/
def escChar (c : Char) : List Char :=
  let n := c.toNat
  if c == '"' then ['\\', '"']
  else if c == '\\' then ['\\', '\\']
  else if c == '\n' then ['\\', 'n']
  else if c == '\t' then ['\\', 't']
  else if c == '\r' then ['\\', 'r']
  else if n == 8 then ['\\', 'b']
  else if n == 12 then ['\\', 'f']
  else if 32 ≤ n && n ≤ 126 then [c]
  else if n < 65536 then '\\' :: 'u' :: toHex4 n
  else
    ('\\' :: 'u' :: toHex4 (55296 + (n - 65536) / 1024)) ++
    ('\\' :: 'u' :: toHex4 (56320 + (n - 65536) % 1024))

/-- A JSON string literal: quote, escaped characters, quote. -/
def dumpStr (s : String) : List Char :=
  '"' :: (s.data.map escChar).flatten ++ ['"']

/-- Decimal digit character. -/
def digitCh (n : Nat) : Char := Char.ofNat (48 + n)

/-- Decimal representation of a natural number, accumulator form; `fuel`
bounds the number of digits (the value itself is always enough fuel). -/
def natDecAux : Nat → Nat → List Char → List Char
  | 0, _, acc => acc
  | fuel + 1, n, acc =>
    if n < 10 then digitCh n :: acc
    else natDecAux fuel (n / 10) (digitCh (n % 10) :: acc)

/-- Decimal representation of a natural number. -/
def natDec (n : Nat) : List Char := natDecAux (n + 1) n []

/-- Python's decimal rendering of an `int` inside JSON. -/
def intRepr (i : Int) : List Char :=
  if i < 0 then '-' :: natDec (-i).toNat else natDec i.toNat

/-- The serialized key-colon prefix of the id field. -/
def kId : List Char := "\"id\": ".data

/-- The serialized key-colon prefix of the description field. -/
def kDescription : List Char := "\"description\": ".data

/-- The serialized key-colon prefix of the status field. -/
def kStatus : List Char := "\"status\": ".data

/-- The serialized key-colon prefix of the createdAt field. -/
def kCreatedAt : List Char := "\"createdAt\": ".data

/-- The serialized key-colon prefix of the updatedAt field. -/
def kUpdatedAt : List Char := "\"updatedAt\": ".data

/-- The separator `json.dump(..., indent=2)` writes between the fields of a
task object: a comma, a newline and the four-space indent. -/
def fieldSep : List Char := ',' :: '\n' :: ' ' :: ' ' :: ' ' :: ' ' :: []

/-- One task record as serialized by `json.dump(..., indent=2)` at nesting
depth 1: keys in the insertion order of `add_task` (lines 117-123). -/
def dumpTask (t : Task) : List Char :=
  '\x7b' :: '\n' :: ' ' :: ' ' :: ' ' :: ' ' ::
  (kId ++ (intRepr t.id ++
  (fieldSep ++ (kDescription ++ (dumpStr t.description ++
  (fieldSep ++ (kStatus ++ (dumpStr t.status ++
  (fieldSep ++ (kCreatedAt ++ (dumpStr t.createdAt ++
  (fieldSep ++ (kUpdatedAt ++ (dumpStr t.updatedAt ++
  ('\n' :: ' ' :: ' ' :: '\x7d' :: [])))))))))))))))

/-- The comma-and-indent separated items of a non-empty task array. -/
def itemsDump : List Task → List Char
  | [] => []
  | [t] => dumpTask t
  | t :: t2 :: rest => dumpTask t ++ (',' :: '\n' :: ' ' :: ' ' :: itemsDump (t2 :: rest))

/-- The whole file content written by `save_tasks` (lines 28-30):
`json.dump(tasks, f, indent=2)`. -/
def dumpTasks : List Task → List Char
  | [] => ['[', ']']
  | t :: ts => ('[' :: '\n' :: ' ' :: ' ' :: itemsDump (t :: ts)) ++ ['\n', ']']

/-- `save_tasks` (lines 28-30): the content the program writes to the store
file. -/
def save_tasks (tasks : List Task) : List Char := dumpTasks tasks

/-- JSON inter-token whitespace. -/
def jsonWs (c : Char) : Bool := c == ' ' || c == '\t' || c == '\n' || c == '\r'

/-- Skip JSON whitespace. -/
def skipWs (l : List Char) : List Char := l.dropWhile jsonWs

/-- Consume an expected literal character sequence. -/
def expectLit : List Char → List Char → Except String (List Char)
  | [], l => .ok l
  | _ :: _, [] => .error "unexpected end of input"
  | c :: cs, x :: xs => if x == c then expectLit cs xs else .error "unexpected character"

/-- Value of one hex digit. -/
def hexVal (c : Char) : Option Nat :=
  let n := c.toNat
  if 48 ≤ n && n ≤ 57 then some (n - 48)
  else if 97 ≤ n && n ≤ 102 then some (n - 87)
  else if 65 ≤ n && n ≤ 70 then some (n - 55)
  else none

/-- Is `c` an ASCII decimal digit? -/
def isDigitCh (c : Char) : Bool := 48 ≤ c.toNat && c.toNat ≤ 57

/-- Consume a run of decimal digits, folding them onto `acc`. -/
def parseDigits : List Char → Nat → Nat × List Char
  | [], acc => (acc, [])
  | c :: cs, acc =>
    if isDigitCh c then parseDigits cs (acc * 10 + (c.toNat - 48))
    else (acc, c :: cs)

/-- Parse a JSON integer (optional minus sign, then digits). -/
def parseInt : List Char → Except String (Int × List Char)
  | [] => .error "expected number"
  | c :: cs =>
    if c == '-' then
      match cs with
      | [] => .error "expected digit"
      | c2 :: cs2 =>
        if isDigitCh c2 then
          let p := parseDigits cs2 (c2.toNat - 48)
          .ok (-(p.1 : Int), p.2)
        else .error "expected digit"
    else if isDigitCh c then
      let p := parseDigits cs (c.toNat - 48)
      .ok ((p.1 : Int), p.2)
    else .error "expected number"

/-- Decode one escape sequence of a JSON string (the part after the
backslash), per the JSON grammar: the short escapes, and `\uXXXX` with
surrogate-pair recombination.  Returns the decoded character and the
remaining input. -/
def decodeEsc : List Char → Except String (Char × List Char)
  | [] => .error "invalid escape"
  | e :: r =>
    if e == '"' then .ok ('"', r)
    else if e == '\\' then .ok ('\\', r)
    else if e == '/' then .ok ('/', r)
    else if e == 'b' then .ok ('\x08', r)
    else if e == 'f' then .ok ('\x0c', r)
    else if e == 'n' then .ok ('\n', r)
    else if e == 'r' then .ok ('\r', r)
    else if e == 't' then .ok ('\t', r)
    else if e == 'u' then
      match r with
      | a :: b :: c2 :: d :: r2 =>
        match hexVal a, hexVal b, hexVal c2, hexVal d with
        | some x, some y, some z, some w =>
          let n := x * 4096 + y * 256 + z * 16 + w
          if 55296 ≤ n && n ≤ 56319 then
            match r2 with
            | u1 :: u2 :: a2 :: b2 :: c3 :: d2 :: r4 =>
              if u1 == '\\' && u2 == 'u' then
                match hexVal a2, hexVal b2, hexVal c3, hexVal d2 with
                | some x2, some y2, some z2, some w2 =>
                  let m := x2 * 4096 + y2 * 256 + z2 * 16 + w2
                  if 56320 ≤ m && m ≤ 57343 then
                    .ok (Char.ofNat (65536 + (n - 55296) * 1024 + (m - 56320)), r4)
                  else .error "invalid low surrogate"
                | _, _, _, _ => .error "invalid hex escape"
              else .error "unpaired surrogate"
            | _ => .error "unpaired surrogate"
          else .ok (Char.ofNat n, r2)
        | _, _, _, _ => .error "invalid hex escape"
      | _ => .error "invalid hex escape"
    else .error "invalid escape"

/-- The body of a JSON string after the opening quote: decode characters
and escapes (via `decodeEsc`) until the closing quote.  `acc` holds the
decoded characters in reverse; `fuel` bounds the number of decoded
characters (the input length is always enough). -/
def parseJStrAux : Nat → List Char → List Char → Except String (List Char × List Char)
  | 0, _, _ => .error "out of fuel"
  | _ + 1, [], _ => .error "unterminated string"
  | fuel + 1, c :: rest, acc =>
    if c == '"' then .ok (acc.reverse, rest)
    else if c == '\\' then
      match decodeEsc rest with
      | .ok (ch, r) => parseJStrAux fuel r (ch :: acc)
      | .error e => .error e
    else parseJStrAux fuel rest (c :: acc)

/-- Parse a JSON string literal. -/
def parseJStr : List Char → Except String (String × List Char)
  | [] => .error "expected string"
  | c :: rest =>
    if c == '"' then
      match parseJStrAux (rest.length + 1) rest [] with
      | .ok (cs, r) => .ok (⟨cs⟩, r)
      | .error e => .error e
    else .error "expected string"

/-- Parse one task object: the five fields of §3 in the canonical order the
program writes them. -/
def parseTask (l : List Char) : Except String (Task × List Char) := do
  let l1 ← expectLit ['\x7b'] (skipWs l)
  let l2 ← expectLit kId (skipWs l1)
  let (i, l3) ← parseInt l2
  let l4 ← expectLit [','] (skipWs l3)
  let l5 ← expectLit kDescription (skipWs l4)
  let (d, l6) ← parseJStr l5
  let l7 ← expectLit [','] (skipWs l6)
  let l8 ← expectLit kStatus (skipWs l7)
  let (st, l9) ← parseJStr l8
  let l10 ← expectLit [','] (skipWs l9)
  let l11 ← expectLit kCreatedAt (skipWs l10)
  let (ca, l12) ← parseJStr l11
  let l13 ← expectLit [','] (skipWs l12)
  let l14 ← expectLit kUpdatedAt (skipWs l13)
  let (ua, l15) ← parseJStr l14
  let l16 ← expectLit ['\x7d'] (skipWs l15)
  return (⟨i, d, st, ca, ua⟩, l16)

/-- Parse one or more comma-separated task objects up to the closing `]`.
`fuel` bounds the number of items (each item consumes at least one input
character, so the input length is always enough fuel). -/
def parseItems : Nat → List Char → Except String (List Task × List Char)
  | 0, _ => .error "out of fuel"
  | fuel + 1, l => do
    let (t, l1) ← parseTask l
    match skipWs l1 with
    | [] => .error "expected comma or closing bracket"
    | c :: r =>
      if c == ',' then do
        let (ts, r2) ← parseItems fuel r
        return (t :: ts, r2)
      else if c == ']' then return ([t], r)
      else .error "expected comma or closing bracket"

/-- Parse the items of a non-empty array and require the input to end after
the closing bracket, as `json.load` rejects trailing data. -/
def parseTasksRest (n : Nat) (r : List Char) : Except String (List Task) :=
  match parseItems n r with
  | .ok (ts, r3) => if (skipWs r3).isEmpty then .ok ts else .error "extra data"
  | .error e => .error e

/-- Parsing model of `json.load` on the store's canonical shape: a JSON
array of task records (the only shape the program itself ever writes).
Anything else is a parse failure carrying a diagnostic, as a corrupted
store is in the source. -/
def parseTasks (l : List Char) : Except String (List Task) :=
  match skipWs l with
  | [] => .error "expecting value"
  | c :: r =>
    if c == '[' then
      match skipWs r with
      | [] => parseTasksRest (l.length + 1) r
      | c2 :: r2 =>
        if c2 == ']' then
          (if (skipWs r2).isEmpty then .ok [] else .error "extra data")
        else parseTasksRest (l.length + 1) r
    else .error "expecting value"

/-- The `click.ClickException` message raised on a corrupted store
(line 21), carrying the underlying parse diagnostic. -/
def corruptMsg (e : String) : String := "Error: Tasks file is corrupted. " ++ e

/-- `load_tasks` (lines 9-26): a missing file or a zero-length file yields
the empty collection; otherwise the content is parsed, and a parse failure
raises the corrupted-store exception. -/
def load_tasks : Option (List Char) → Except String (List Task)
  | none => .ok []
  | some content =>
    if content.isEmpty then .ok []
    else
      match parseTasks content with
      | .ok ts => .ok ts
      | .error e => .error (corruptMsg e)

/-! ### The command surface: one invocation = load, mutate, save, report. -/

/-- The observable result of one command invocation: the store file after
the command, whether the command wrote the store, the stdout and stderr
lines, and the process exit code. -/
structure Outcome where
  file : Option (List Char)
  wrote : Bool
  out : List String
  err : List String
  exitCode : Nat
deriving DecidableEq, Repr

/-- The `add` command (lines 37-43): validate the description (a
`BadParameter` exits with code 2), then `add_task` (lines 112-126): load,
append the new task, save, report the new id. -/
def add_cmd (fs : Option (List Char)) (description now : String) : Outcome :=
  match validate_description description with
  | .error e => ⟨fs, false, [], [valErrMsg e], 2⟩
  | .ok nd =>
    match load_tasks fs with
    | .error e => ⟨fs, false, [], [e], 1⟩
    | .ok ts =>
      let p := add_task ts nd now
      ⟨some (save_tasks p.1), true,
        ["Task added successfully (ID: " ++ toString p.2.id ++ ")"], [], 0⟩

/-- The `update` command (lines 45-60): load, mutate the first matching
task and save, or report "not found" on stderr and return normally. -/
def update_cmd (fs : Option (List Char)) (task_id : Int) (description now : String) :
    Outcome :=
  match load_tasks fs with
  | .error e => ⟨fs, false, [], [e], 1⟩
  | .ok ts =>
    match updateFirst ts task_id description now with
    | some ts2 =>
      ⟨some (save_tasks ts2), true,
        ["Task " ++ toString task_id ++ " updated successfully"], [], 0⟩
    | none => ⟨fs, false, [], ["Task " ++ toString task_id ++ " not found"], 0⟩

/-- `_update_task_status` (lines 99-110) as invoked by the `mark-done` and
`mark-in-progress` commands (lines 87-97). -/
def mark_cmd (fs : Option (List Char)) (task_id : Int) (status now : String) : Outcome :=
  match load_tasks fs with
  | .error e => ⟨fs, false, [], [e], 1⟩
  | .ok ts =>
    match setStatusFirst ts task_id status now with
    | some ts2 =>
      ⟨some (save_tasks ts2), true,
        ["Task " ++ toString task_id ++ " marked as " ++ status], [], 0⟩
    | none => ⟨fs, false, [], ["Task " ++ toString task_id ++ " not found"], 0⟩

/-- The `delete` command (lines 62-69): load, drop every matching task,
save unconditionally, report success. -/
def delete_cmd (fs : Option (List Char)) (task_id : Int) : Outcome :=
  match load_tasks fs with
  | .error e => ⟨fs, false, [], [e], 1⟩
  | .ok ts =>
    ⟨some (save_tasks (deleteAll ts task_id)), true,
      ["Task " ++ toString task_id ++ " deleted successfully"], [], 0⟩

/-- The `list` command (lines 71-85): load and print; never writes. -/
def list_cmd (fs : Option (List Char)) (status : String) : Outcome :=
  match load_tasks fs with
  | .error e => ⟨fs, false, [], [e], 1⟩
  | .ok ts => ⟨fs, false, listLines ts status, [], 0⟩

/-! ### Add/delete operation traces, for the id-uniqueness claims. -/

/-- One store-mutating operation of an add/delete trace. -/
inductive Op where
  | add (description now : String)
  | del (i : Int)
deriving DecidableEq, Repr

/-- Apply one operation to the in-memory collection. -/
def applyOp (tasks : List Task) : Op → List Task
  | .add d now => (add_task tasks d now).1
  | .del i => deleteAll tasks i

/-- Apply a sequence of operations. -/
def applyOps (tasks : List Task) (ops : List Op) : List Task :=
  ops.foldl applyOp tasks

/-- All intermediate collections of a trace, the starting one included. -/
def statesOf (tasks : List Task) : List Op → List (List Task)
  | [] => [tasks]
  | op :: ops => tasks :: statesOf (applyOp tasks op) ops

/-- The ids of the tasks in a collection. -/
def idsOf (tasks : List Task) : List Int := tasks.map (fun t => t.id)

/-- The largest id ever present in any intermediate collection of a trace
(0 when none was ever present), the quantity the spec's id-assignment rule
refers to. -/
def maxIdEver (tasks : List Task) (ops : List Op) : Int :=
  pyMaxDefault0 ((statesOf tasks ops).map idsOf).flatten

/-! ### Normalization: `' '.join(s.split())` collapses whitespace runs and
trims the ends. -/

theorem pyWs_space : pyWs ' ' = true := by decide

theorem not_space_of_not_ws (c : Char) (h : pyWs c = false) : (c == ' ') = false := by
  by_contra hne
  rw [Bool.not_eq_false] at hne
  rw [eq_of_beq hne, pyWs_space] at h
  cases h

theorem collapseAux_true_head : ∀ (l : List Char) (c : Char) (cs : List Char),
    collapseAux l true = c :: cs → pyWs c = false := by
  intro l
  induction l with
  | nil => intro c cs h; simp [collapseAux] at h
  | cons a l ih =>
    intro c cs h
    by_cases ha : pyWs a
    · simp only [collapseAux, ha, if_true] at h
      exact ih c cs h
    · simp only [collapseAux, ha, Bool.false_eq_true, if_false] at h
      cases h
      simpa using ha

theorem ltrimSp_collapseAux_true (l : List Char) :
    ltrimSp (collapseAux l true) = collapseAux l true := by
  cases h : collapseAux l true with
  | nil => rfl
  | cons c cs =>
    have hc : (c == ' ') = false := not_space_of_not_ws c (collapseAux_true_head l c cs h)
    unfold ltrimSp
    rw [List.dropWhile_cons_of_neg (by simp [hc])]

theorem ltrimSp_collapse (l : List Char) :
    ltrimSp (collapseAux l false) = collapseAux l true := by
  cases l with
  | nil => rfl
  | cons c cs =>
    by_cases hc : pyWs c
    · simp only [collapseAux, hc, if_true, Bool.false_eq_true, if_false]
      show ltrimSp (' ' :: collapseAux cs true) = collapseAux cs true
      unfold ltrimSp
      rw [List.dropWhile_cons_of_pos (by simp)]
      exact ltrimSp_collapseAux_true cs
    · simp only [collapseAux, hc, Bool.false_eq_true, if_false]
      unfold ltrimSp
      rw [List.dropWhile_cons_of_neg (by simp [not_space_of_not_ws c (by simpa using hc)])]

theorem rtrimSp_cons_of_ne (c : Char) (x : List Char) (h : (c == ' ') = false) :
    rtrimSp (c :: x) = c :: rtrimSp x := by
  unfold rtrimSp
  rw [List.reverse_cons, List.dropWhile_append]
  by_cases he : (x.reverse.dropWhile (fun a => a == ' ')).isEmpty
  · have hnil : x.reverse.dropWhile (fun a => a == ' ') = [] := by simpa using he
    rw [if_pos he, List.dropWhile_cons_of_neg (by simp [h]), hnil]
    rfl
  · rw [if_neg he, List.reverse_append]
    rfl

theorem rtrimSp_cons_of_mem (c : Char) (x : List Char)
    (h : ∃ a ∈ x, (a == ' ') = false) : rtrimSp (c :: x) = c :: rtrimSp x := by
  unfold rtrimSp
  rw [List.reverse_cons, List.dropWhile_append]
  have he : (x.reverse.dropWhile (fun a => a == ' ')).isEmpty = false := by
    rw [List.isEmpty_eq_false, ne_eq, List.dropWhile_eq_nil_iff]
    intro hall
    obtain ⟨a, hmem, hne⟩ := h
    have := hall a (List.mem_reverse.mpr hmem)
    rw [this] at hne
    exact absurd hne (by decide)
  rw [he]
  simp only [Bool.false_eq_true, if_false]
  rw [List.reverse_append]
  rfl

theorem pyWordsAux_ne_nil (l : List Char) :
    ∀ acc : List Char, acc.isEmpty = false → pyWordsAux l acc ≠ [] := by
  induction l with
  | nil =>
    intro acc hacc
    rw [pyWordsAux, hacc]
    simp
  | cons c cs ih =>
    intro acc hacc
    rw [pyWordsAux]
    by_cases hc : pyWs c
    · rw [if_pos hc, hacc]
      simp
    · rw [if_neg hc]
      exact ih (c :: acc) rfl

theorem pyWords_nil_iff_collapse_nil (l : List Char) :
    (pyWordsAux l [] = []) ↔ (collapseAux l true = []) := by
  induction l with
  | nil => simp [pyWordsAux, collapseAux]
  | cons c cs ih =>
    by_cases hc : pyWs c
    · simp only [pyWordsAux, collapseAux, hc, if_true, List.isEmpty_nil]
      simpa using ih
    · simp only [pyWordsAux, collapseAux, hc, Bool.false_eq_true, if_false]
      constructor
      · intro h; exact absurd h (pyWordsAux_ne_nil cs [c] rfl)
      · intro h; simp at h

theorem collapse_join_main (l : List Char) :
    (rtrimSp (collapseAux l true) = joinWords (pyWordsAux l [])) ∧
    (∀ acc : List Char, acc ≠ [] →
      joinWords (pyWordsAux l acc) = acc.reverse ++ rtrimSp (collapseAux l false)) := by
  induction l with
  | nil =>
    constructor
    · rfl
    · intro acc hacc
      rw [pyWordsAux, List.isEmpty_eq_false.mpr hacc]
      show joinWords [acc.reverse] = acc.reverse ++ rtrimSp []
      rw [joinWords]
      simp [rtrimSp]
  | cons c cs ih =>
    obtain ⟨ih1, ih2⟩ := ih
    by_cases hc : pyWs c
    · constructor
      · simp only [collapseAux, pyWordsAux, hc, if_true, List.isEmpty_nil]
        exact ih1
      · intro acc hacc
        simp only [pyWordsAux, collapseAux, hc, if_true,
          List.isEmpty_eq_false.mpr hacc, Bool.false_eq_true, if_false]
        cases hW : pyWordsAux cs [] with
        | nil =>
          have hcoll : collapseAux cs true = [] :=
            (pyWords_nil_iff_collapse_nil cs).mp hW
          rw [hcoll]
          show joinWords [acc.reverse] = acc.reverse ++ rtrimSp [' ']
          rw [joinWords]
          have hsp : rtrimSp [' '] = [] := by decide
          rw [hsp, List.append_nil]
        | cons w ws2 =>
          have hcoll : collapseAux cs true ≠ [] := by
            intro hh
            rw [(pyWords_nil_iff_collapse_nil cs).mpr hh] at hW
            simp at hW
          obtain ⟨h1, t1, hct⟩ : ∃ h1 t1, collapseAux cs true = h1 :: t1 := by
            cases hcc : collapseAux cs true with
            | nil => exact absurd hcc hcoll
            | cons a b => exact ⟨a, b, rfl⟩
          have hne : (h1 == ' ') = false :=
            not_space_of_not_ws h1 (collapseAux_true_head cs h1 t1 hct)
          rw [hct, rtrimSp_cons_of_mem ' ' (h1 :: t1) ⟨h1, List.mem_cons_self _ _, hne⟩,
            ← hct, ih1, hW]
          show joinWords (acc.reverse :: w :: ws2) =
            acc.reverse ++ ' ' :: joinWords (w :: ws2)
          rw [joinWords]
    · have hcne : (c == ' ') = false := not_space_of_not_ws c (by simpa using hc)
      constructor
      · simp only [collapseAux, pyWordsAux, hc, Bool.false_eq_true, if_false, if_true]
        rw [rtrimSp_cons_of_ne c _ hcne, ih2 [c] (by simp)]
        rfl
      · intro acc hacc
        simp only [pyWordsAux, collapseAux, hc, Bool.false_eq_true, if_false]
        rw [ih2 (c :: acc) (by simp), rtrimSp_cons_of_ne c _ hcne]
        simp

/-- The source normalization equals the spec's collapse-then-trim
normalization, character for character. -/
theorem normalizeDesc_eq_specNormalize (s : String) :
    (normalizeDesc s).data = specNormalize s.data := by
  show joinWords (pyWordsAux s.data []) = rtrimSp (ltrimSp (collapseAux s.data false))
  rw [ltrimSp_collapse, (collapse_join_main s.data).1]

/-- C3: description validation first collapses every whitespace run to a
single space and trims the ends; it fails with the empty-description error
iff the normalized result is empty, fails with the too-long error iff the
normalized result exceeds 500 characters, and otherwise returns the
normalized string. -/
theorem validate_description_spec (s : String) :
    (normalizeDesc s).data = trimEnds (collapseRuns s.data) ∧
    (validate_description s = .error .empty ↔ (normalizeDesc s).data = []) ∧
    (validate_description s = .error .tooLong ↔ (normalizeDesc s).data.length > 500) ∧
    ((normalizeDesc s).data ≠ [] → (normalizeDesc s).data.length ≤ 500 →
      validate_description s = .ok (normalizeDesc s)) := by
  refine ⟨normalizeDesc_eq_specNormalize s, ?_, ?_, ?_⟩ <;>
  · by_cases h1 : (normalizeDesc s).data = []
    · simp [validate_description, h1]
    · by_cases h2 : (normalizeDesc s).data.length > 500
      · have h2a : 500 < (normalizeDesc s).length := h2
        simp [validate_description, h1, h2, h2a]
      · have h2a : ¬ 500 < (normalizeDesc s).length := h2
        simp [validate_description, h1, h2, h2a]

/-- Witness for C3: the hypotheses of the success clause hold at a concrete
input, and the claimed equations evaluate there.  Note the whitespace-only
and boundary behaviour is an instance of the proved equivalences. -/
theorem validate_description_spec_witness :
    ((normalizeDesc " a  b ").data ≠ [] ∧ (normalizeDesc " a  b ").data.length ≤ 500) ∧
    validate_description " a  b " = .ok (normalizeDesc " a  b ") :=
  ⟨⟨by decide, by decide⟩, (validate_description_spec " a  b ").2.2.2 (by decide) (by decide)⟩

/-! ### First-match mutation lemmas for update and mark-status. -/

theorem updateFirst_none (ts : List Task) (i : Int) (d now : String)
    (h : ∀ t ∈ ts, t.id ≠ i) : updateFirst ts i d now = none := by
  induction ts with
  | nil => rfl
  | cons t ts ih =>
    have ht : (t.id == i) = false := by
      simpa using h t (List.mem_cons_self t ts)
    simp only [updateFirst, ht, Bool.false_eq_true, if_false]
    rw [ih (fun u hu => h u (List.mem_cons_of_mem t hu))]
    rfl

theorem setStatusFirst_none (ts : List Task) (i : Int) (st now : String)
    (h : ∀ t ∈ ts, t.id ≠ i) : setStatusFirst ts i st now = none := by
  induction ts with
  | nil => rfl
  | cons t ts ih =>
    have ht : (t.id == i) = false := by
      simpa using h t (List.mem_cons_self t ts)
    simp only [setStatusFirst, ht, Bool.false_eq_true, if_false]
    rw [ih (fun u hu => h u (List.mem_cons_of_mem t hu))]
    rfl

theorem updateFirst_append (pre : List Task) (t : Task) (post : List Task)
    (i : Int) (d now : String) (ht : t.id = i) (hpre : ∀ u ∈ pre, u.id ≠ i) :
    updateFirst (pre ++ t :: post) i d now =
      some (pre ++ { t with description := d, updatedAt := now } :: post) := by
  induction pre with
  | nil => simp [updateFirst, ht]
  | cons p ps ih =>
    have hp : (p.id == i) = false := by
      simpa using hpre p (List.mem_cons_self p ps)
    rw [List.cons_append]
    simp only [updateFirst, hp, Bool.false_eq_true, if_false]
    rw [ih (fun u hu => hpre u (List.mem_cons_of_mem p hu))]
    rfl

theorem setStatusFirst_append (pre : List Task) (t : Task) (post : List Task)
    (i : Int) (st now : String) (ht : t.id = i) (hpre : ∀ u ∈ pre, u.id ≠ i) :
    setStatusFirst (pre ++ t :: post) i st now =
      some (pre ++ { t with status := st, updatedAt := now } :: post) := by
  induction pre with
  | nil => simp [setStatusFirst, ht]
  | cons p ps ih =>
    have hp : (p.id == i) = false := by
      simpa using hpre p (List.mem_cons_self p ps)
    rw [List.cons_append]
    simp only [setStatusFirst, hp, Bool.false_eq_true, if_false]
    rw [ih (fun u hu => hpre u (List.mem_cons_of_mem p hu))]
    rfl

/-- C4: on a store containing a task with the given id, update stores the
new description verbatim and sets `updatedAt` to the current time on that
task, leaving its other fields (id, status, createdAt) and every other
task unchanged. -/
theorem update_verbatim_and_frame (pre : List Task) (t : Task) (post : List Task)
    (i : Int) (d now : String) (ht : t.id = i) (hpre : ∀ u ∈ pre, u.id ≠ i) :
    updateFirst (pre ++ t :: post) i d now =
      some (pre ++ ⟨t.id, d, t.status, t.createdAt, now⟩ :: post) :=
  updateFirst_append pre t post i d now ht hpre

/-- Witness for C4: a concrete store where the raw, non-normalized
description "  X  " is stored verbatim and everything else kept. -/
theorem update_verbatim_and_frame_witness :
    ((⟨2, "b", "in-progress", "c2", "u2"⟩ : Task).id = 2 ∧
      (∀ u ∈ ([⟨1, "a", "todo", "c1", "u1"⟩] : List Task), u.id ≠ 2)) ∧
    updateFirst [⟨1, "a", "todo", "c1", "u1"⟩, ⟨2, "b", "in-progress", "c2", "u2"⟩,
        ⟨3, "c", "done", "c3", "u3"⟩] 2 "  X  " "NOW" =
      some [⟨1, "a", "todo", "c1", "u1"⟩, ⟨2, "  X  ", "in-progress", "c2", "NOW"⟩,
        ⟨3, "c", "done", "c3", "u3"⟩] :=
  ⟨⟨by decide, by decide⟩,
    update_verbatim_and_frame [⟨1, "a", "todo", "c1", "u1"⟩]
      ⟨2, "b", "in-progress", "c2", "u2"⟩ [⟨3, "c", "done", "c3", "u3"⟩]
      2 "  X  " "NOW" (by decide) (by decide)⟩

/-- C5: when no stored task has the given id, both update and the
mark-status operations leave the store file untouched, write nothing,
report "not found" on stderr, and exit with code 0. -/
theorem notfound_soft_noop (fs : Option (List Char)) (i : Int) (d st now : String)
    (ts : List Task) (hload : load_tasks fs = .ok ts) (hno : ∀ t ∈ ts, t.id ≠ i) :
    update_cmd fs i d now = ⟨fs, false, [], ["Task " ++ toString i ++ " not found"], 0⟩ ∧
    mark_cmd fs i st now = ⟨fs, false, [], ["Task " ++ toString i ++ " not found"], 0⟩ := by
  simp only [update_cmd, mark_cmd, hload, updateFirst_none ts i d now hno,
    setStatusFirst_none ts i st now hno]
  exact ⟨trivial, trivial⟩

/-- Witness for C5 at a concrete one-task store and a missing id. -/
theorem notfound_soft_noop_witness :
    (load_tasks (some (save_tasks [⟨1, "a", "todo", "c", "u"⟩])) =
        .ok [⟨1, "a", "todo", "c", "u"⟩] ∧
      (∀ t ∈ ([⟨1, "a", "todo", "c", "u"⟩] : List Task), t.id ≠ 999)) ∧
    (update_cmd (some (save_tasks [⟨1, "a", "todo", "c", "u"⟩])) 999 "d" "T" =
        ⟨some (save_tasks [⟨1, "a", "todo", "c", "u"⟩]), false, [],
          ["Task " ++ toString (999 : Int) ++ " not found"], 0⟩ ∧
      mark_cmd (some (save_tasks [⟨1, "a", "todo", "c", "u"⟩])) 999 "done" "T" =
        ⟨some (save_tasks [⟨1, "a", "todo", "c", "u"⟩]), false, [],
          ["Task " ++ toString (999 : Int) ++ " not found"], 0⟩) :=
  ⟨⟨by decide, by decide⟩,
    notfound_soft_noop (some (save_tasks [⟨1, "a", "todo", "c", "u"⟩])) 999 "d" "done" "T"
      [⟨1, "a", "todo", "c", "u"⟩] (by decide) (by decide)⟩

/-- C6: delete drops exactly the matching tasks, keeps the rest in order,
persists unconditionally (also when nothing matched), and reports
success. -/
theorem delete_filters_persists_succeeds (fs : Option (List Char)) (i : Int)
    (ts : List Task) (hload : load_tasks fs = .ok ts) :
    delete_cmd fs i = ⟨some (save_tasks (deleteAll ts i)), true,
        ["Task " ++ toString i ++ " deleted successfully"], [], 0⟩ ∧
    (∀ u ∈ deleteAll ts i, u.id ≠ i) ∧
    (∀ u ∈ ts, u.id ≠ i → u ∈ deleteAll ts i) ∧
    List.Sublist (deleteAll ts i) ts := by
  refine ⟨?_, ?_, ?_, ?_⟩
  · unfold delete_cmd
    rw [hload]
  · intro u hu
    have := (List.mem_filter.mp hu).2
    simpa using this
  · intro u hu hne
    exact List.mem_filter.mpr ⟨hu, by simpa using hne⟩
  · exact List.filter_sublist ts

/-- Witness for C6: deleting id 1 from a two-task store (nothing with id 1
is left; the other task survives in place; the file is rewritten). -/
theorem delete_filters_persists_succeeds_witness :
    load_tasks (some (save_tasks [⟨1, "a", "todo", "c", "u"⟩, ⟨2, "b", "done", "c", "u"⟩])) =
      .ok [⟨1, "a", "todo", "c", "u"⟩, ⟨2, "b", "done", "c", "u"⟩] ∧
    delete_cmd (some (save_tasks [⟨1, "a", "todo", "c", "u"⟩, ⟨2, "b", "done", "c", "u"⟩])) 1 =
      ⟨some (save_tasks (deleteAll [⟨1, "a", "todo", "c", "u"⟩, ⟨2, "b", "done", "c", "u"⟩] 1)),
        true, ["Task " ++ toString (1 : Int) ++ " deleted successfully"], [], 0⟩ :=
  ⟨by decide,
    (delete_filters_persists_succeeds
      (some (save_tasks [⟨1, "a", "todo", "c", "u"⟩, ⟨2, "b", "done", "c", "u"⟩])) 1
      [⟨1, "a", "todo", "c", "u"⟩, ⟨2, "b", "done", "c", "u"⟩] (by decide)).1⟩

/-- C7: list with a concrete status filter prints exactly the matching
tasks in collection order (or "No tasks found" on an empty selection, with
exit code 0, not an error), and list(all) prints the whole collection. -/
theorem list_filter_correct (fs : Option (List Char)) (ts : List Task) (S : String)
    (hload : load_tasks fs = .ok ts)
    (hS : S ∈ (["todo", "in-progress", "done"] : List String)) :
    (list_cmd fs S = ⟨fs, false,
        if (ts.filter (fun t => t.status == S)).isEmpty then ["No tasks found"]
        else (ts.filter (fun t => t.status == S)).map fmtTask, [], 0⟩) ∧
    (list_cmd fs "all" = ⟨fs, false,
        if ts.isEmpty then ["No tasks found"] else ts.map fmtTask, [], 0⟩) ∧
    (∀ line ∈ (list_cmd fs S).out,
      line = "No tasks found" ∨ ∃ t ∈ ts, t.status = S ∧ line = fmtTask t) := by
  have hfilter : list_cmd fs S = ⟨fs, false,
      if (ts.filter (fun t => t.status == S)).isEmpty then ["No tasks found"]
      else (ts.filter (fun t => t.status == S)).map fmtTask, [], 0⟩ := by
    unfold list_cmd listLines
    rw [hload]
    have hSa : (S != "all") = true := by
      simp only [List.mem_cons, List.not_mem_nil, or_false] at hS
      rcases hS with rfl | rfl | rfl <;> decide
    simp only [hSa, if_true]
  refine ⟨hfilter, ?_, ?_⟩
  · unfold list_cmd listLines
    rw [hload]
    simp
  · intro line hline
    rw [hfilter] at hline
    simp only at hline
    by_cases he : (ts.filter (fun t => t.status == S)).isEmpty
    · rw [if_pos he] at hline
      left
      simpa using hline
    · rw [if_neg he] at hline
      right
      obtain ⟨t, htmem, hteq⟩ := List.mem_map.mp hline
      exact ⟨t, (List.mem_filter.mp htmem).1,
        by simpa using (List.mem_filter.mp htmem).2, hteq.symm⟩

/-- Witness for C7 at a concrete store and the "done" filter. -/
theorem list_filter_correct_witness :
    (load_tasks (some (save_tasks [⟨1, "a", "todo", "c", "u"⟩, ⟨2, "b", "done", "c", "u"⟩])) =
        .ok [⟨1, "a", "todo", "c", "u"⟩, ⟨2, "b", "done", "c", "u"⟩] ∧
      "done" ∈ (["todo", "in-progress", "done"] : List String)) ∧
    list_cmd (some (save_tasks [⟨1, "a", "todo", "c", "u"⟩, ⟨2, "b", "done", "c", "u"⟩])) "done" =
      ⟨some (save_tasks [⟨1, "a", "todo", "c", "u"⟩, ⟨2, "b", "done", "c", "u"⟩]), false,
        if (([⟨1, "a", "todo", "c", "u"⟩, ⟨2, "b", "done", "c", "u"⟩] : List Task).filter
            (fun t => t.status == "done")).isEmpty then ["No tasks found"]
        else (([⟨1, "a", "todo", "c", "u"⟩, ⟨2, "b", "done", "c", "u"⟩] : List Task).filter
            (fun t => t.status == "done")).map fmtTask, [], 0⟩ :=
  ⟨⟨by decide, by decide⟩,
    (list_filter_correct (some (save_tasks [⟨1, "a", "todo", "c", "u"⟩, ⟨2, "b", "done", "c", "u"⟩]))
      [⟨1, "a", "todo", "c", "u"⟩, ⟨2, "b", "done", "c", "u"⟩] "done" (by decide) (by decide)).1⟩

/-- C10: with duplicate ids in the store (possible only by external
editing), update and mark-status mutate only the first match — the later
duplicates, here allowed to sit in `post`, are untouched — while delete
removes every bearer of the id. -/
theorem duplicates_first_match_and_delete (pre : List Task) (t : Task) (post : List Task)
    (i : Int) (d st now : String) (ht : t.id = i) (hpre : ∀ u ∈ pre, u.id ≠ i) :
    updateFirst (pre ++ t :: post) i d now =
      some (pre ++ { t with description := d, updatedAt := now } :: post) ∧
    setStatusFirst (pre ++ t :: post) i st now =
      some (pre ++ { t with status := st, updatedAt := now } :: post) ∧
    (∀ ts : List Task, (∀ u ∈ deleteAll ts i, u.id ≠ i) ∧
      (∀ u ∈ ts, u.id ≠ i → u ∈ deleteAll ts i) ∧ List.Sublist (deleteAll ts i) ts) := by
  refine ⟨updateFirst_append pre t post i d now ht hpre,
    setStatusFirst_append pre t post i st now ht hpre, ?_⟩
  intro ts
  refine ⟨?_, ?_, List.filter_sublist ts⟩
  · intro u hu
    have := (List.mem_filter.mp hu).2
    simpa using this
  · intro u hu hne
    exact List.mem_filter.mpr ⟨hu, by simpa using hne⟩

/-- Witness for C10 on a store holding two tasks with id 1: only the first
is updated, and delete removes both. -/
theorem duplicates_first_match_and_delete_witness :
    ((⟨1, "first", "todo", "c1", "u1"⟩ : Task).id = 1 ∧
      (∀ u ∈ ([] : List Task), u.id ≠ 1)) ∧
    updateFirst [⟨1, "first", "todo", "c1", "u1"⟩, ⟨1, "second", "done", "c2", "u2"⟩]
        1 "new" "NOW" =
      some [⟨1, "new", "todo", "c1", "NOW"⟩, ⟨1, "second", "done", "c2", "u2"⟩] ∧
    deleteAll [⟨1, "first", "todo", "c1", "u1"⟩, ⟨1, "second", "done", "c2", "u2"⟩] 1 = [] :=
  ⟨⟨by decide, by decide⟩,
    (duplicates_first_match_and_delete [] ⟨1, "first", "todo", "c1", "u1"⟩
      [⟨1, "second", "done", "c2", "u2"⟩] 1 "new" "done" "NOW" (by decide) (by decide)).1,
    by decide⟩

/-! ### Id assignment over add/delete traces. -/

theorem le_foldl_max (l : List Int) :
    ∀ a : Int, a ≤ l.foldl max a ∧ ∀ x ∈ l, x ≤ l.foldl max a := by
  induction l with
  | nil => intro a; exact ⟨le_refl a, by simp⟩
  | cons b bs ih =>
    intro a
    constructor
    · show a ≤ bs.foldl max (max a b)
      exact le_trans (le_max_left a b) (ih (max a b)).1
    · intro x hx
      rcases List.mem_cons.mp hx with rfl | hx2
      · show x ≤ bs.foldl max (max a x)
        exact le_trans (le_max_right a x) (ih (max a x)).1
      · exact (ih (max a b)).2 x hx2

theorem mem_le_pyMax (l : List Int) (x : Int) (hx : x ∈ l) : x ≤ pyMaxDefault0 l := by
  cases l with
  | nil => cases hx
  | cons a as =>
    rcases List.mem_cons.mp hx with rfl | h
    · exact (le_foldl_max as x).1
    · exact (le_foldl_max as a).2 x h

theorem nextId_not_mem (ts : List Task) : nextId ts ∉ idsOf ts := by
  intro h
  have hle := mem_le_pyMax (idsOf ts) (nextId ts) h
  have : nextId ts = pyMaxDefault0 (idsOf ts) + 1 := rfl
  omega

theorem idsOf_applyOp_add (ts : List Task) (d now : String) :
    idsOf (applyOp ts (.add d now)) = idsOf ts ++ [nextId ts] := by
  simp [applyOp, add_task, idsOf]

theorem nodup_applyOp (ts : List Task) (op : Op) (h : (idsOf ts).Nodup) :
    (idsOf (applyOp ts op)).Nodup := by
  cases op with
  | add d now =>
    rw [idsOf_applyOp_add]
    rw [List.nodup_append]
    refine ⟨h, List.nodup_singleton _, ?_⟩
    intro x hx hx1
    rw [List.mem_singleton] at hx1
    subst hx1
    exact nextId_not_mem ts hx
  | del i =>
    have hsub : List.Sublist (idsOf (applyOp ts (.del i))) (idsOf ts) :=
      List.Sublist.map _ (List.filter_sublist ts)
    exact h.sublist hsub

theorem nodup_applyOps (ops : List Op) :
    ∀ ts : List Task, (idsOf ts).Nodup → (idsOf (applyOps ts ops)).Nodup := by
  induction ops with
  | nil => intro ts h; exact h
  | cons op ops ih =>
    intro ts h
    exact ih (applyOp ts op) (nodup_applyOp ts op h)

/-- C1 amended: over every add/delete trace from the empty store the task
ids stay pairwise distinct, and each add assigns one more than the maximum
id currently present (0 when the collection is empty) — not the maximum id
ever present, so an id can be reused once every task with an id at least
as large has been deleted. -/
theorem ids_unique_and_add_assigns_current_max (ops : List Op) :
    (idsOf (applyOps [] ops)).Nodup ∧
    ∀ (ts : List Task) (d now : String),
      (add_task ts d now).2.id = pyMaxDefault0 (idsOf ts) + 1 ∧
      (add_task ts d now).1 = ts ++ [(add_task ts d now).2] := by
  refine ⟨nodup_applyOps ops [] (by simp [idsOf]), ?_⟩
  intro ts d now
  exact ⟨rfl, rfl⟩

/-- C1 counterexample: after add("A"), add("B"), delete(2), the ids ever
present are 1 and 2 (so the claim demands the next add get id 3), but the
code assigns max-currently-present + 1 = 2, reusing the id of the deleted
task. -/
theorem id_reuse_counterexample :
    (add_task (applyOps [] [Op.add "A" "t1", Op.add "B" "t2", Op.del 2]) "C" "t3").2.id = 2 ∧
    maxIdEver [] [Op.add "A" "t1", Op.add "B" "t2", Op.del 2] = 2 ∧
    (2 : Int) ∈ idsOf (applyOps [] [Op.add "A" "t1", Op.add "B" "t2"]) ∧
    (2 : Int) ∉ idsOf (applyOps [] [Op.add "A" "t1", Op.add "B" "t2", Op.del 2]) := by
  refine ⟨by decide, by decide, by decide, by decide⟩

/-- C2: with a valid description, add appends exactly one task at the end
of the collection, with id = (max id currently present, 0 if empty) + 1,
status todo, createdAt = updatedAt = the current timestamp and the
normalized description; it persists the result and reports the new id. -/
theorem add_appends_new_task (fs : Option (List Char)) (d now : String)
    (ts : List Task) (nd : String)
    (hload : load_tasks fs = .ok ts) (hval : validate_description d = .ok nd) :
    add_cmd fs d now =
      ⟨some (save_tasks (ts ++ [⟨pyMaxDefault0 (idsOf ts) + 1, nd, "todo", now, now⟩])),
        true,
        ["Task added successfully (ID: " ++ toString (pyMaxDefault0 (idsOf ts) + 1) ++ ")"],
        [], 0⟩ := by
  simp only [add_cmd, hval, hload]
  rfl

/-- Witness for C2: adding to an empty (missing) store with a raw
description that normalizes to "hi there" creates task 1. -/
theorem add_appends_new_task_witness :
    (load_tasks none = .ok [] ∧ validate_description " hi  there " = .ok "hi there") ∧
    add_cmd none " hi  there " "T" =
      ⟨some (save_tasks (([] : List Task) ++
          [⟨pyMaxDefault0 (idsOf []) + 1, "hi there", "todo", "T", "T"⟩])),
        true,
        ["Task added successfully (ID: " ++
          toString (pyMaxDefault0 (idsOf ([] : List Task)) + 1) ++ ")"],
        [], 0⟩ :=
  ⟨⟨by decide, by decide⟩,
    add_appends_new_task none " hi  there " "T" [] "hi there" (by decide) (by decide)⟩

/-! ### Loading: missing, empty and corrupted stores. -/

/-- C8 counterexample: the two-byte store file "[]" exists and has nonzero
length, yet load returns the empty collection without an error — so load
yields an empty collection not *exactly* when the file is missing or
zero-length. -/
theorem load_empty_result_nonempty_file_counterexample :
    load_tasks (some ['[', ']']) = .ok [] ∧ (['[', ']'] : List Char).length ≠ 0 :=
  ⟨by decide, by decide⟩

/-- C8 amended: a missing or zero-length file loads as the empty collection
(so does a parseable file holding an empty array); a non-empty file whose
content fails to parse makes load fail with the corrupted-store error
carrying the parse diagnostic, and each store-reading command then reports
that error, exits nonzero, and attempts no write. -/
theorem load_missing_empty_corrupted (c : List Char) (e : String)
    (i : Int) (d st now flt : String)
    (hc : parseTasks c = .error e) (hne : c ≠ []) :
    load_tasks none = .ok [] ∧
    load_tasks (some []) = .ok [] ∧
    load_tasks (some c) = .error (corruptMsg e) ∧
    update_cmd (some c) i d now = ⟨some c, false, [], [corruptMsg e], 1⟩ ∧
    mark_cmd (some c) i st now = ⟨some c, false, [], [corruptMsg e], 1⟩ ∧
    delete_cmd (some c) i = ⟨some c, false, [], [corruptMsg e], 1⟩ ∧
    list_cmd (some c) flt = ⟨some c, false, [], [corruptMsg e], 1⟩ ∧
    (∀ nd, validate_description d = .ok nd →
      add_cmd (some c) d now = ⟨some c, false, [], [corruptMsg e], 1⟩) := by
  have hload : load_tasks (some c) = .error (corruptMsg e) := by
    simp only [load_tasks, List.isEmpty_eq_false.mpr hne, Bool.false_eq_true, if_false, hc]
  refine ⟨rfl, rfl, hload, ?_, ?_, ?_, ?_, ?_⟩
  · simp only [update_cmd, hload]
  · simp only [mark_cmd, hload]
  · simp only [delete_cmd, hload]
  · simp only [list_cmd, hload]
  · intro nd hval
    simp only [add_cmd, hval, hload]

/-- Witness for C8 at the concrete unparseable one-byte store "*". -/
theorem load_missing_empty_corrupted_witness :
    (parseTasks ['*'] = .error "expecting value" ∧ (['*'] : List Char) ≠ []) ∧
    (load_tasks none = .ok [] ∧
      load_tasks (some []) = .ok [] ∧
      load_tasks (some ['*']) = .error (corruptMsg "expecting value")) :=
  ⟨⟨by decide, by decide⟩,
    (load_missing_empty_corrupted ['*'] "expecting value" 7 "d" "done" "T" "all"
        (by decide) (by decide)).1,
    (load_missing_empty_corrupted ['*'] "expecting value" 7 "d" "done" "T" "all"
        (by decide) (by decide)).2.1,
    (load_missing_empty_corrupted ['*'] "expecting value" 7 "d" "done" "T" "all"
        (by decide) (by decide)).2.2.1⟩

/-! ### Round-trip persistence: parsing the serialized store recovers it. -/

theorem except_bind_ok {ε α β : Type} (a : α) (f : α → Except ε β) :
    (Except.ok a >>= f) = f a := rfl

theorem expectLit_append (xs rest : List Char) : expectLit xs (xs ++ rest) = .ok rest := by
  induction xs with
  | nil => rfl
  | cons c cs ih => simp [expectLit, ih]

theorem skipWs_cons_neg (c : Char) (x : List Char) (h : jsonWs c = false) :
    skipWs (c :: x) = c :: x := by
  simp [skipWs, List.dropWhile_cons, h]

theorem skipWs_cons_pos (c : Char) (x : List Char) (h : jsonWs c = true) :
    skipWs (c :: x) = skipWs x := by
  simp [skipWs, List.dropWhile_cons, h]

theorem digitCh_isDigit (n : Nat) (h : n < 10) : isDigitCh (digitCh n) = true := by
  interval_cases n <;> decide

theorem digitCh_toNat (n : Nat) (h : n < 10) : (digitCh n).toNat = 48 + n := by
  interval_cases n <;> decide

theorem digit_ne_minus (c : Char) (h : isDigitCh c = true) : (c == '-') = false := by
  cases hm : c == '-'
  · rfl
  · rw [eq_of_beq hm] at h
    cases h

theorem natDecAux_acc (fuel : Nat) :
    ∀ (n : Nat) (acc : List Char), natDecAux fuel n acc = natDecAux fuel n [] ++ acc := by
  induction fuel with
  | zero => intro n acc; rfl
  | succ fuel ih =>
    intro n acc
    by_cases h : n < 10
    · simp [natDecAux, h]
    · simp only [natDecAux, h, if_false]
      rw [ih (n / 10) (digitCh (n % 10) :: acc), ih (n / 10) [digitCh (n % 10)]]
      simp

theorem natDecAux_all_digits (fuel : Nat) :
    ∀ (n : Nat) (acc : List Char), (∀ c ∈ acc, isDigitCh c = true) →
      ∀ c ∈ natDecAux fuel n acc, isDigitCh c = true := by
  induction fuel with
  | zero => intro n acc hacc; exact hacc
  | succ fuel ih =>
    intro n acc hacc c hc
    by_cases h : n < 10
    · simp only [natDecAux, h, if_true] at hc
      rcases List.mem_cons.mp hc with rfl | hmem
      · exact digitCh_isDigit n h
      · exact hacc c hmem
    · simp only [natDecAux, h, if_false] at hc
      refine ih (n / 10) (digitCh (n % 10) :: acc) ?_ c hc
      intro c2 hc2
      rcases List.mem_cons.mp hc2 with rfl | hmem
      · exact digitCh_isDigit (n % 10) (Nat.mod_lt n (by omega))
      · exact hacc c2 hmem

theorem parseDigits_append (fuel : Nat) :
    ∀ (n a : Nat) (rest : List Char), n < 10 ^ fuel →
      parseDigits (natDecAux fuel n [] ++ rest) a =
        parseDigits rest (a * 10 ^ (natDecAux fuel n []).length + n) := by
  induction fuel with
  | zero =>
    intro n a rest h
    interval_cases n
    simp [natDecAux, parseDigits]
  | succ fuel ih =>
    intro n a rest h
    by_cases h10 : n < 10
    · have hone : natDecAux (fuel + 1) n [] = [digitCh n] := by simp [natDecAux, h10]
      rw [hone]
      show parseDigits (digitCh n :: rest) a = _
      rw [parseDigits]
      simp only [digitCh_isDigit n h10, if_true, digitCh_toNat n h10]
      congr 1
      rw [List.length_singleton, Nat.pow_one]
      omega
    · have hsucc : natDecAux (fuel + 1) n [] =
          natDecAux fuel (n / 10) [] ++ [digitCh (n % 10)] := by
        simp only [natDecAux, h10, if_false]
        exact natDecAux_acc fuel (n / 10) [digitCh (n % 10)]
      have hdiv : n / 10 < 10 ^ fuel := by
        rw [Nat.div_lt_iff_lt_mul (by norm_num)]
        calc n < 10 ^ (fuel + 1) := h
          _ = 10 ^ fuel * 10 := by rw [Nat.pow_succ]
      rw [hsucc, List.append_assoc, List.singleton_append,
        ih (n / 10) a (digitCh (n % 10) :: rest) hdiv]
      have hstep : parseDigits (digitCh (n % 10) :: rest)
          (a * 10 ^ (natDecAux fuel (n / 10) []).length + n / 10) =
          parseDigits rest
            ((a * 10 ^ (natDecAux fuel (n / 10) []).length + n / 10) * 10 + (n % 10)) := by
        rw [parseDigits]
        simp only [digitCh_isDigit (n % 10) (Nat.mod_lt n (by omega)), if_true,
          digitCh_toNat (n % 10) (Nat.mod_lt n (by omega))]
        congr 1
        omega
      rw [hstep]
      congr 1
      rw [List.length_append, List.length_singleton, Nat.pow_succ]
      have hmod := Nat.div_add_mod n 10
      ring_nf
      omega

theorem parseDigits_stop (rest : List Char) (a : Nat)
    (h : rest = [] ∨ ∃ c cs, rest = c :: cs ∧ isDigitCh c = false) :
    parseDigits rest a = (a, rest) := by
  rcases h with rfl | ⟨c, cs, rfl, hc⟩
  · rfl
  · simp [parseDigits, hc]

theorem nat_lt_ten_pow_succ (n : Nat) : n < 10 ^ (n + 1) :=
  lt_of_lt_of_le (Nat.lt_pow_self (by norm_num) n)
    (Nat.pow_le_pow_right (by norm_num) (Nat.le_succ n))

theorem parseDigits_natDec (n a : Nat) (rest : List Char) :
    parseDigits (natDec n ++ rest) a =
      parseDigits rest (a * 10 ^ (natDec n).length + n) :=
  parseDigits_append (n + 1) n a rest (nat_lt_ten_pow_succ n)

theorem natDec_ne_nil (n : Nat) : natDec n ≠ [] := by
  unfold natDec
  by_cases h : n < 10
  · simp [natDecAux, h]
  · simp only [natDecAux, h, if_false]
    rw [natDecAux_acc]
    simp

theorem natDec_head_digit (n : Nat) (d : Char) (ds : List Char)
    (h : natDec n = d :: ds) : isDigitCh d = true := by
  have : ∀ c ∈ natDec n, isDigitCh c = true :=
    natDecAux_all_digits (n + 1) n [] (by intro c hc; cases hc)
  exact this d (h ▸ List.mem_cons_self d ds)

theorem parseInt_intRepr (i : Int) (rest : List Char)
    (hrest : rest = [] ∨ ∃ c cs, rest = c :: cs ∧ isDigitCh c = false) :
    parseInt (intRepr i ++ rest) = .ok (i, rest) := by
  by_cases hneg : i < 0
  · have hi : intRepr i = '-' :: natDec (-i).toNat := by simp [intRepr, hneg]
    obtain ⟨d, ds, hdec⟩ : ∃ d ds, natDec (-i).toNat = d :: ds := by
      cases hd : natDec (-i).toNat with
      | nil => exact absurd hd (natDec_ne_nil _)
      | cons a b => exact ⟨a, b, rfl⟩
    have hd : isDigitCh d = true := natDec_head_digit _ d ds hdec
    have hchain : parseDigits (ds ++ rest) (d.toNat - 48) = ((-i).toNat, rest) := by
      have h0 : parseDigits ((d :: ds) ++ rest) 0 =
          parseDigits (ds ++ rest) (0 * 10 + (d.toNat - 48)) := by
        rw [List.cons_append, parseDigits]
        simp [hd]
      have h1 : parseDigits (natDec (-i).toNat ++ rest) 0 = ((-i).toNat, rest) := by
        rw [parseDigits_natDec, parseDigits_stop rest _ hrest]
        simp
      rw [hdec] at h1
      rw [h0] at h1
      simpa using h1
    rw [hi, List.cons_append, hdec, List.cons_append]
    simp only [parseInt, beq_self_eq_true, if_true, hd, hchain]
    have hni : -(((-i).toNat : Int)) = i := by omega
    rw [hni]
  · have hi : intRepr i = natDec i.toNat := by simp [intRepr, hneg]
    obtain ⟨d, ds, hdec⟩ : ∃ d ds, natDec i.toNat = d :: ds := by
      cases hd : natDec i.toNat with
      | nil => exact absurd hd (natDec_ne_nil _)
      | cons a b => exact ⟨a, b, rfl⟩
    have hd : isDigitCh d = true := natDec_head_digit _ d ds hdec
    have hchain : parseDigits (ds ++ rest) (d.toNat - 48) = (i.toNat, rest) := by
      have h0 : parseDigits ((d :: ds) ++ rest) 0 =
          parseDigits (ds ++ rest) (0 * 10 + (d.toNat - 48)) := by
        rw [List.cons_append, parseDigits]
        simp [hd]
      have h1 : parseDigits (natDec i.toNat ++ rest) 0 = (i.toNat, rest) := by
        rw [parseDigits_natDec, parseDigits_stop rest _ hrest]
        simp
      rw [hdec] at h1
      rw [h0] at h1
      simpa using h1
    rw [hi, hdec, List.cons_append]
    simp only [parseInt, digit_ne_minus d hd, Bool.false_eq_true, if_false, hd, if_true, hchain]
    have hpi : ((i.toNat : Int)) = i := by omega
    rw [hpi]

theorem decide_and_true {p q : Prop} [Decidable p] [Decidable q] (hp : p) (hq : q) :
    (decide p && decide q) = true := by simp [hp, hq]

theorem decide_and_false {p q : Prop} [Decidable p] [Decidable q] (h : ¬(p ∧ q)) :
    (decide p && decide q) = false := by
  by_cases hp : p
  · by_cases hq : q
    · exact absurd ⟨hp, hq⟩ h
    · simp [hq]
  · simp [hp]

theorem hexVal_hexDigit (n : Nat) (h : n < 16) : hexVal (hexDigit n) = some n := by
  interval_cases n <;> decide

theorem char_eq_of_toNat {c : Char} {n : Nat} (h : c.toNat = n) : c = Char.ofNat n := by
  rw [← h, Char.ofNat_toNat]

theorem char_toNat_valid (c : Char) :
    c.toNat < 55296 ∨ (57343 < c.toNat ∧ c.toNat < 1114112) := c.valid

theorem parseJStrAux_quote (fuel : Nat) (rest acc : List Char) :
    parseJStrAux (fuel + 1) ('"' :: rest) acc = .ok (acc.reverse, rest) := rfl

theorem parseJStrAux_step_raw (fuel : Nat) (c : Char) (rest acc : List Char)
    (h1 : (c == '"') = false) (h2 : (c == '\\') = false) :
    parseJStrAux (fuel + 1) (c :: rest) acc = parseJStrAux fuel rest (c :: acc) := by
  simp only [parseJStrAux, h1, h2, Bool.false_eq_true, if_false]

theorem parseJStrAux_step_esc (fuel : Nat) (rest acc : List Char) (ch : Char)
    (r : List Char) (hdec : decodeEsc rest = .ok (ch, r)) :
    parseJStrAux (fuel + 1) ('\\' :: rest) acc = parseJStrAux fuel r (ch :: acc) := by
  simp +decide [parseJStrAux, hdec]

theorem decodeEsc_u (c : Char) (more : List Char) (h9 : c.toNat < 65536)
    (hns : ¬(55296 ≤ c.toNat ∧ c.toNat ≤ 56319)) :
    decodeEsc ('u' :: (toHex4 c.toNat ++ more)) = .ok (Char.ofNat c.toNat, more) := by
  have e1 : hexVal (hexDigit (c.toNat / 4096 % 16)) = some (c.toNat / 4096 % 16) :=
    hexVal_hexDigit _ (Nat.mod_lt _ (by norm_num))
  have e2 : hexVal (hexDigit (c.toNat / 256 % 16)) = some (c.toNat / 256 % 16) :=
    hexVal_hexDigit _ (Nat.mod_lt _ (by norm_num))
  have e3 : hexVal (hexDigit (c.toNat / 16 % 16)) = some (c.toNat / 16 % 16) :=
    hexVal_hexDigit _ (Nat.mod_lt _ (by norm_num))
  have e4 : hexVal (hexDigit (c.toNat % 16)) = some (c.toNat % 16) :=
    hexVal_hexDigit _ (Nat.mod_lt _ (by norm_num))
  have hN : (c.toNat / 4096 % 16) * 4096 + (c.toNat / 256 % 16) * 256 +
      (c.toNat / 16 % 16) * 16 + c.toNat % 16 = c.toNat := by omega
  have hsur : (decide (55296 ≤ c.toNat) && decide (c.toNat ≤ 56319)) = false :=
    decide_and_false hns
  simp only [toHex4, List.cons_append, List.nil_append]
  simp +decide only [decodeEsc, e1, e2, e3, e4]
  simp [hN, hsur]

theorem decodeEsc_pair (hi lo : Nat) (more : List Char)
    (hhi1 : 55296 ≤ hi) (hhi2 : hi ≤ 56319) (hlo1 : 56320 ≤ lo) (hlo2 : lo ≤ 57343) :
    decodeEsc ('u' :: (toHex4 hi ++ ('\\' :: 'u' :: (toHex4 lo ++ more)))) =
      .ok (Char.ofNat (65536 + (hi - 55296) * 1024 + (lo - 56320)), more) := by
  have e1 : hexVal (hexDigit (hi / 4096 % 16)) = some (hi / 4096 % 16) :=
    hexVal_hexDigit _ (Nat.mod_lt _ (by norm_num))
  have e2 : hexVal (hexDigit (hi / 256 % 16)) = some (hi / 256 % 16) :=
    hexVal_hexDigit _ (Nat.mod_lt _ (by norm_num))
  have e3 : hexVal (hexDigit (hi / 16 % 16)) = some (hi / 16 % 16) :=
    hexVal_hexDigit _ (Nat.mod_lt _ (by norm_num))
  have e4 : hexVal (hexDigit (hi % 16)) = some (hi % 16) :=
    hexVal_hexDigit _ (Nat.mod_lt _ (by norm_num))
  have f1 : hexVal (hexDigit (lo / 4096 % 16)) = some (lo / 4096 % 16) :=
    hexVal_hexDigit _ (Nat.mod_lt _ (by norm_num))
  have f2 : hexVal (hexDigit (lo / 256 % 16)) = some (lo / 256 % 16) :=
    hexVal_hexDigit _ (Nat.mod_lt _ (by norm_num))
  have f3 : hexVal (hexDigit (lo / 16 % 16)) = some (lo / 16 % 16) :=
    hexVal_hexDigit _ (Nat.mod_lt _ (by norm_num))
  have f4 : hexVal (hexDigit (lo % 16)) = some (lo % 16) :=
    hexVal_hexDigit _ (Nat.mod_lt _ (by norm_num))
  have hNhi : (hi / 4096 % 16) * 4096 + (hi / 256 % 16) * 256 +
      (hi / 16 % 16) * 16 + hi % 16 = hi := by omega
  have hNlo : (lo / 4096 % 16) * 4096 + (lo / 256 % 16) * 256 +
      (lo / 16 % 16) * 16 + lo % 16 = lo := by omega
  have hsurHi : (decide (55296 ≤ hi) && decide (hi ≤ 56319)) = true :=
    decide_and_true hhi1 hhi2
  simp only [toHex4, List.cons_append, List.nil_append]
  simp +decide only [decodeEsc, e1, e2, e3, e4]
  simp +decide [hNhi, hsurHi]
  simp +decide only [f1, f2, f3, f4]
  simp +decide [hNlo]
  exact ⟨hlo1, hlo2⟩

theorem decodeEsc_surrogate (c : Char) (more : List Char) (h : 65536 ≤ c.toNat)
    (hv : c.toNat < 1114112) :
    decodeEsc ('u' :: (toHex4 (55296 + (c.toNat - 65536) / 1024) ++
      ('\\' :: 'u' :: (toHex4 (56320 + (c.toNat - 65536) % 1024) ++ more)))) =
      .ok (Char.ofNat c.toNat, more) := by
  have hmod := Nat.mod_lt (c.toNat - 65536) (show 0 < 1024 by norm_num)
  rw [decodeEsc_pair (55296 + (c.toNat - 65536) / 1024) (56320 + (c.toNat - 65536) % 1024)
    more (by omega) (by omega) (by omega) (by omega)]
  have harg : 65536 + (55296 + (c.toNat - 65536) / 1024 - 55296) * 1024 +
      (56320 + (c.toNat - 65536) % 1024 - 56320) = c.toNat := by omega
  rw [harg, Char.ofNat_toNat]

theorem parseJStrAux_escChar (c : Char) (fuel : Nat) (more acc : List Char) :
    parseJStrAux (fuel + 1) (escChar c ++ more) acc = parseJStrAux fuel more (c :: acc) := by
  by_cases h1 : c = '"'
  · subst h1
    exact parseJStrAux_step_esc fuel ('"' :: more) acc '"' more rfl
  · by_cases h2 : c = '\\'
    · subst h2
      exact parseJStrAux_step_esc fuel ('\\' :: more) acc '\\' more rfl
    · by_cases h3 : c = '\n'
      · subst h3
        exact parseJStrAux_step_esc fuel ('n' :: more) acc '\n' more rfl
      · by_cases h4 : c = '\t'
        · subst h4
          exact parseJStrAux_step_esc fuel ('t' :: more) acc '\t' more rfl
        · by_cases h5 : c = '\r'
          · subst h5
            exact parseJStrAux_step_esc fuel ('r' :: more) acc '\r' more rfl
          · by_cases h6 : c.toNat = 8
            · have hc := char_eq_of_toNat h6
              subst hc
              exact parseJStrAux_step_esc fuel ('b' :: more) acc (Char.ofNat 8) more rfl
            · by_cases h7 : c.toNat = 12
              · have hc := char_eq_of_toNat h7
                subst hc
                exact parseJStrAux_step_esc fuel ('f' :: more) acc (Char.ofNat 12) more rfl
              · have h1b : (c == '"') = false := beq_eq_false_iff_ne.mpr h1
                have h2b : (c == '\\') = false := beq_eq_false_iff_ne.mpr h2
                have h3b : (c == '\n') = false := beq_eq_false_iff_ne.mpr h3
                have h4b : (c == '\t') = false := beq_eq_false_iff_ne.mpr h4
                have h5b : (c == '\r') = false := beq_eq_false_iff_ne.mpr h5
                have h6b : (c.toNat == 8) = false := beq_eq_false_iff_ne.mpr h6
                have h7b : (c.toNat == 12) = false := beq_eq_false_iff_ne.mpr h7
                by_cases h8 : 32 ≤ c.toNat ∧ c.toNat ≤ 126
                · have h8b : (decide (32 ≤ c.toNat) && decide (c.toNat ≤ 126)) = true :=
                    decide_and_true h8.1 h8.2
                  simp only [escChar, h1b, h2b, h3b, h4b, h5b, h6b, h7b, h8b,
                    Bool.false_eq_true, if_false, if_true, List.singleton_append]
                  exact parseJStrAux_step_raw fuel c more acc h1b h2b
                · have h8b : (decide (32 ≤ c.toNat) && decide (c.toNat ≤ 126)) = false :=
                    decide_and_false h8
                  by_cases h9 : c.toNat < 65536
                  · have hns : ¬(55296 ≤ c.toNat ∧ c.toNat ≤ 56319) := by
                      rcases char_toNat_valid c with hlt | ⟨hgt, _⟩ <;> omega
                    simp only [escChar, h1b, h2b, h3b, h4b, h5b, h6b, h7b, h8b, h9,
                      Bool.false_eq_true, if_false, if_true, List.cons_append]
                    rw [parseJStrAux_step_esc fuel ('u' :: (toHex4 c.toNat ++ more)) acc
                      (Char.ofNat c.toNat) more (decodeEsc_u c more h9 hns),
                      Char.ofNat_toNat]
                  · have hge : 65536 ≤ c.toNat := by omega
                    have hv2 : c.toNat < 1114112 := by
                      rcases char_toNat_valid c with hlt | ⟨_, hlt2⟩ <;> omega
                    simp only [escChar, h1b, h2b, h3b, h4b, h5b, h6b, h7b, h8b, h9,
                      Bool.false_eq_true, if_false, if_true, List.cons_append,
                      List.append_assoc]
                    rw [parseJStrAux_step_esc fuel
                      ('u' :: (toHex4 (55296 + (c.toNat - 65536) / 1024) ++
                        ('\\' :: 'u' :: (toHex4 (56320 + (c.toNat - 65536) % 1024) ++ more))))
                      acc (Char.ofNat c.toNat) more
                      (decodeEsc_surrogate c more hge hv2),
                      Char.ofNat_toNat]

theorem escChar_length_pos (c : Char) : 1 ≤ (escChar c).length := by
  simp only [escChar]
  split_ifs <;> simp [toHex4]

theorem flat_length_ge (s : List Char) : s.length ≤ ((s.map escChar).flatten).length := by
  induction s with
  | nil => simp
  | cons c cs ih =>
    simp only [List.map_cons, List.flatten_cons, List.length_append, List.length_cons]
    have := escChar_length_pos c
    omega

theorem parseJStrAux_flat (s : List Char) : ∀ (acc more : List Char) (fuel : Nat),
    parseJStrAux (s.length + fuel + 1) ((s.map escChar).flatten ++ '"' :: more) acc =
      .ok (acc.reverse ++ s, more) := by
  induction s with
  | nil =>
    intro acc more fuel
    simp only [List.map_nil, List.flatten_nil, List.nil_append, List.length_nil,
      Nat.zero_add]
    rw [parseJStrAux_quote]
    simp
  | cons c cs ih =>
    intro acc more fuel
    have hlen : (c :: cs).length + fuel + 1 = (cs.length + fuel + 1) + 1 := by
      simp only [List.length_cons]
      omega
    rw [hlen]
    simp only [List.map_cons, List.flatten_cons, List.append_assoc]
    rw [parseJStrAux_escChar c (cs.length + fuel + 1)
      ((cs.map escChar).flatten ++ '"' :: more) acc]
    rw [ih (c :: acc) more fuel]
    simp

theorem parseJStr_dumpStr (s : String) (rest : List Char) :
    parseJStr (dumpStr s ++ rest) = .ok (s, rest) := by
  have hshape : dumpStr s ++ rest =
      '"' :: ((s.data.map escChar).flatten ++ '"' :: rest) := by
    simp [dumpStr, List.append_assoc]
  rw [hshape]
  have hge := flat_length_ge s.data
  obtain ⟨k, hk⟩ : ∃ k, ((s.data.map escChar).flatten ++ '"' :: rest).length + 1 =
      s.data.length + k + 1 :=
    ⟨((s.data.map escChar).flatten).length - s.data.length + rest.length + 1, by
      simp only [List.length_append, List.length_cons]
      omega⟩
  simp only [parseJStr, beq_self_eq_true, if_true]
  rw [hk, parseJStrAux_flat s.data [] rest k]
  rfl

theorem kId_eq : kId = '\"' :: 'i' :: 'd' :: '\"' :: ':' :: ' ' :: [] := rfl

theorem kDescription_eq : kDescription = '\"' :: 'd' :: 'e' :: 's' :: 'c' :: 'r' :: 'i' :: 'p' :: 't' :: 'i' :: 'o' :: 'n' :: '\"' :: ':' :: ' ' :: [] := rfl

theorem kStatus_eq : kStatus = '\"' :: 's' :: 't' :: 'a' :: 't' :: 'u' :: 's' :: '\"' :: ':' :: ' ' :: [] := rfl

theorem kCreatedAt_eq : kCreatedAt = '\"' :: 'c' :: 'r' :: 'e' :: 'a' :: 't' :: 'e' :: 'd' :: 'A' :: 't' :: '\"' :: ':' :: ' ' :: [] := rfl

theorem kUpdatedAt_eq : kUpdatedAt = '\"' :: 'u' :: 'p' :: 'd' :: 'a' :: 't' :: 'e' :: 'd' :: 'A' :: 't' :: '\"' :: ':' :: ' ' :: [] := rfl

theorem parseTask_dumpTask (t : Task) (rest : List Char) :
    parseTask (dumpTask t ++ rest) = .ok (t, rest) := by
  obtain ⟨i, d, st, ca, ua⟩ := t
  have hInt : ∀ X : List Char, parseInt (intRepr i ++ (',' :: X)) = .ok (i, ',' :: X) :=
    fun X => parseInt_intRepr i (',' :: X) (Or.inr ⟨',', X, rfl, by decide⟩)
  simp only [dumpTask, kId_eq, kDescription_eq, kStatus_eq, kCreatedAt_eq, kUpdatedAt_eq,
    fieldSep, List.cons_append, List.append_assoc, List.nil_append]
  simp +decide [parseTask, skipWs, List.dropWhile_cons, expectLit, hInt, parseJStr_dumpStr,
    except_bind_ok]

theorem parseTask_cons_ws (w : Char) (l : List Char) (hw : jsonWs w = true) :
    parseTask (w :: l) = parseTask l := by
  simp only [parseTask, skipWs_cons_pos w l hw]

theorem parseItems_cons_ws (fuel : Nat) (w : Char) (l : List Char) (hw : jsonWs w = true) :
    parseItems (fuel + 1) (w :: l) = parseItems (fuel + 1) l := by
  simp only [parseItems, parseTask_cons_ws w l hw]

theorem parseItems_step (fuel : Nat) (l : List Char) :
    parseItems (fuel + 1) l =
      (do
        let (t, l1) ← parseTask l
        match skipWs l1 with
        | [] => .error "expected comma or closing bracket"
        | c :: r =>
          if c == ',' then do
            let (ts, r2) ← parseItems fuel r
            return (t :: ts, r2)
          else if c == ']' then return ([t], r)
          else .error "expected comma or closing bracket" :
        Except String (List Task × List Char)) := rfl

theorem parseItems_itemsDump :
    ∀ (ts : List Task) (t : Task) (rest : List Char) (fuel : Nat),
      parseItems (ts.length + fuel + 1) (itemsDump (t :: ts) ++ ('\n' :: ']' :: rest)) =
        .ok ([t] ++ ts, rest) := by
  intro ts
  induction ts with
  | nil =>
    intro t rest fuel
    simp only [List.length_nil, Nat.zero_add, itemsDump]
    rw [parseItems_step, parseTask_dumpTask t ('\n' :: ']' :: rest)]
    simp only [except_bind_ok]
    rw [skipWs_cons_pos _ _ (by decide), skipWs_cons_neg _ _ (by decide)]
    rfl
  | cons t2 ts2 ih =>
    intro t rest fuel
    have hlen : (t2 :: ts2).length + fuel + 1 = (ts2.length + fuel + 1) + 1 := by
      simp only [List.length_cons]
      omega
    rw [hlen]
    simp only [itemsDump, List.cons_append, List.append_assoc]
    rw [parseItems_step,
      parseTask_dumpTask t
        (',' :: '\n' :: ' ' :: ' ' :: (itemsDump (t2 :: ts2) ++ '\n' :: ']' :: rest))]
    simp only [except_bind_ok]
    rw [skipWs_cons_neg _ _ (by decide)]
    simp only [beq_self_eq_true, if_true]
    rw [parseItems_cons_ws _ _ _ (by decide), parseItems_cons_ws _ _ _ (by decide),
      parseItems_cons_ws _ _ _ (by decide)]
    rw [ih t2 rest fuel]
    rfl

theorem dumpTask_head (t : Task) : ∃ T, dumpTask t = '\x7b' :: T := by
  exact ⟨_, rfl⟩

theorem itemsDump_head (t : Task) (ts : List Task) :
    ∃ T, itemsDump (t :: ts) = '\x7b' :: T := by
  cases ts with
  | nil => exact ⟨_, rfl⟩
  | cons t2 ts2 => exact ⟨_, rfl⟩

theorem dumpTask_length_pos (t : Task) : 1 ≤ (dumpTask t).length := by
  obtain ⟨T, hT⟩ := dumpTask_head t
  rw [hT]
  simp

theorem itemsDump_length_ge :
    ∀ (ts : List Task) (t : Task), ts.length ≤ (itemsDump (t :: ts)).length := by
  intro ts
  induction ts with
  | nil => intro t; simp
  | cons t2 ts2 ih =>
    intro t
    simp only [itemsDump, List.length_append, List.length_cons]
    have h1 := dumpTask_length_pos t
    have h2 := ih t2
    simp only [List.length_cons] at h2 ⊢
    omega

theorem skipWs_itemsDump (t : Task) (ts : List Task) (X : List Char) :
    ∃ Y, skipWs (itemsDump (t :: ts) ++ X) = '\x7b' :: Y := by
  obtain ⟨T, hT⟩ := itemsDump_head t ts
  rw [hT, List.cons_append, skipWs_cons_neg _ _ (by decide)]
  exact ⟨T ++ X, rfl⟩

theorem parseTasks_save_tasks (ts : List Task) : parseTasks (save_tasks ts) = .ok ts := by
  cases ts with
  | nil => rfl
  | cons t ts2 =>
    have hshape : save_tasks (t :: ts2) =
        '[' :: '\n' :: ' ' :: ' ' :: (itemsDump (t :: ts2) ++ ('\n' :: ']' :: [])) := by
      simp [save_tasks, dumpTasks]
    rw [hshape]
    simp only [parseTasks]
    rw [skipWs_cons_neg _ _ (by decide)]
    simp only [beq_self_eq_true, if_true]
    rw [skipWs_cons_pos _ _ (by decide), skipWs_cons_pos _ _ (by decide),
      skipWs_cons_pos _ _ (by decide)]
    obtain ⟨Y, hY⟩ := skipWs_itemsDump t ts2 ('\n' :: ']' :: [])
    rw [hY]
    have hbr : ('\x7b' == ']') = false := by decide
    simp only [hbr, Bool.false_eq_true, if_false]
    simp only [parseTasksRest]
    rw [parseItems_cons_ws _ _ _ (by decide), parseItems_cons_ws _ _ _ (by decide),
      parseItems_cons_ws _ _ _ (by decide)]
    have hge := itemsDump_length_ge ts2 t
    obtain ⟨k, hk⟩ : ∃ k,
        ('[' :: '\n' :: ' ' :: ' ' ::
          (itemsDump (t :: ts2) ++ ('\n' :: ']' :: []))).length + 1 =
          ts2.length + k + 1 := by
      refine ⟨('[' :: '\n' :: ' ' :: ' ' ::
        (itemsDump (t :: ts2) ++ ('\n' :: ']' :: []))).length - ts2.length, ?_⟩
      simp only [List.length_cons, List.length_append]
      omega
    rw [hk, parseItems_itemsDump ts2 t [] k]
    rfl

/-- C9: parsing the serialized store recovers exactly the collection that
was saved — `load(save(T)) = T` with order and every field preserved, for
every task collection (well-formed or not, the Lean task type already
enforcing the record shape). -/
theorem roundtrip_load_save (ts : List Task) :
    parseTasks (save_tasks ts) = .ok ts ∧
    load_tasks (some (save_tasks ts)) = .ok ts := by
  refine ⟨parseTasks_save_tasks ts, ?_⟩
  have hne : (save_tasks ts).isEmpty = false := by
    cases ts with
    | nil => rfl
    | cons t ts2 => rfl
  simp only [load_tasks, hne, Bool.false_eq_true, if_false, parseTasks_save_tasks ts]

end TaskCli
